import Mathlib

/-!
Shallow embedding of `src/rpi_simple_debugger/gpio_monitor.py`.

The Python module defines two dataclasses (`GPIOState`, `AllGPIOStates`) and a
class `GPIOMonitor` holding a configured pin list, a pin-to-label map, a
polling interval, a callback, a last-known-value dict, a background thread and
a stop event.  We embed:

* Python dicts as association lists (`Dict β := List (Int × β)`), with
  `dget?` for `d.get(k)`, `dgetD` for `d.get(k, default)` and `dinsert` for
  `d[k] = v` (replace in place when the key is present, append otherwise) —
  this matches CPython's insertion-ordered dict for the operations the
  source uses;
* the raw value returned by a hardware read as `RawVal` (a Python bool or
  int), and Python's `int(value)` as `pyInt`;
* the body of `GPIOMonitor._loop` as `readPins` (the read-all-pins pass) and
  `tick` (one full pass plus the snapshot handed to the callback); the
  callback invocations of a run are the list of snapshots `runFrom` returns;
* the hardware read as an oracle `Nat → Int → RawVal` (tick index, pin ↦
  raw value); `fun _ _ => RawVal.int 0` is the degraded mode read;
* the possibly-raising read (`GPIO.input` throwing) as
  `Int → Except Unit RawVal`, with `readPinsE` / `tickE` / `runFromE`
  mirroring the fact that the source's loop body has no try/except: an
  exception propagates, ends the tick without a callback and kills the
  thread;
* the lifecycle (`start` / `stop`, the thread, the stop event, `GPIO.setup`
  and `GPIO.cleanup`) as a state machine on `LC`;
* the unsynchronised concurrent accesses to `_last_values` (the loop's
  per-pin writes against `get_all_states`' per-pin reads, each single dict
  operation atomic under the interpreter lock) as interleavings of atomic
  steps on `Conc`.
-/

namespace RpiGpio

/-- Python dict with int keys, as an insertion-ordered association list. -/
abbrev Dict (β : Type) := List (Int × β)

/-- Python `d.get(k)`: the value at the first (unique) occurrence of `k`. -/
def dget? {β : Type} : Dict β → Int → Option β
  | [], _ => none
  | (k, v) :: rest, q => if k = q then some v else dget? rest q

/-- Python `d.get(k, dflt)`. -/
def dgetD {β : Type} (d : Dict β) (q : Int) (dflt : β) : β :=
  (dget? d q).getD dflt

/-- Python `d[k] = v`: replace in place if `k` is present, else append. -/
def dinsert {β : Type} : Dict β → Int → β → Dict β
  | [], k, v => [(k, v)]
  | (k1, v1) :: rest, k, v =>
    if k1 = k then (k, v) :: rest else (k1, v1) :: dinsert rest k v

/-- The key list of a dict. -/
def dkeys {β : Type} (d : Dict β) : List Int := d.map Prod.fst

@[simp]
theorem dget?_nil {β : Type} (q : Int) : dget? ([] : Dict β) q = none := rfl

theorem dget?_dinsert {β : Type} (d : Dict β) (k q : Int) (v : β) :
    dget? (dinsert d k v) q = if k = q then some v else dget? d q := by
  induction d with
  | nil => simp [dinsert, dget?]
  | cons hd tl ih =>
    obtain ⟨k1, v1⟩ := hd
    by_cases h1 : k1 = k
    · subst h1
      simp only [dinsert, if_pos rfl, dget?]
      by_cases h2 : k1 = q <;> simp [h2]
    · simp only [dinsert, if_neg h1, dget?]
      by_cases h2 : k1 = q
      · subst h2
        have : ¬ k = k1 := fun h => h1 h.symm
        simp [this]
      · simp [h2, ih]

theorem dgetD_dinsert {β : Type} (d : Dict β) (k q : Int) (v dflt : β) :
    dgetD (dinsert d k v) q dflt = if k = q then v else dgetD d q dflt := by
  unfold dgetD
  rw [dget?_dinsert]
  by_cases h : k = q <;> simp [h]

theorem dkeys_dinsert {β : Type} (d : Dict β) (k : Int) (v : β) :
    dkeys (dinsert d k v) =
      if k ∈ dkeys d then dkeys d else dkeys d ++ [k] := by
  induction d with
  | nil => simp [dinsert, dkeys]
  | cons hd tl ih =>
    obtain ⟨k1, v1⟩ := hd
    by_cases h1 : k1 = k
    · subst h1
      simp [dinsert, dkeys]
    · have h1s : ¬ k = k1 := fun hh => h1 hh.symm
      simp only [dinsert, if_neg h1, dkeys, List.map_cons, List.mem_cons] at ih ⊢
      rw [ih]
      by_cases h2 : k ∈ List.map Prod.fst tl
      · simp [h2, h1s]
      · simp [h2, h1s]

theorem mem_dkeys_dinsert {β : Type} (d : Dict β) (k q : Int) (v : β) :
    q ∈ dkeys (dinsert d k v) ↔ q ∈ dkeys d ∨ q = k := by
  rw [dkeys_dinsert]
  by_cases h : k ∈ dkeys d
  · simp only [if_pos h]
    constructor
    · exact fun hq => Or.inl hq
    · rintro (hq | rfl)
      · exact hq
      · exact h
  · simp [if_neg h, List.mem_append]

theorem nodup_dkeys_dinsert {β : Type} (d : Dict β) (k : Int) (v : β)
    (h : (dkeys d).Nodup) : (dkeys (dinsert d k v)).Nodup := by
  rw [dkeys_dinsert]
  by_cases hk : k ∈ dkeys d
  · simpa [hk] using h
  · simp only [if_neg hk]
    simpa [List.nodup_append] using ⟨h, hk⟩

theorem mem_dinsert {β : Type} (d : Dict β) (k : Int) (v : β) (e : Int × β)
    (h : e ∈ dinsert d k v) : e = (k, v) ∨ e ∈ d := by
  induction d with
  | nil => simpa [dinsert] using h
  | cons hd tl ih =>
    obtain ⟨k1, v1⟩ := hd
    simp only [dinsert] at h
    by_cases h1 : k1 = k
    · rw [if_pos h1] at h
      rcases List.mem_cons.mp h with h2 | h2
      · exact Or.inl h2
      · exact Or.inr (List.mem_cons_of_mem _ h2)
    · rw [if_neg h1] at h
      rcases List.mem_cons.mp h with h2 | h2
      · exact Or.inr (by simp [h2])
      · rcases ih h2 with h3 | h3
        · exact Or.inl h3
        · exact Or.inr (List.mem_cons_of_mem _ h3)

theorem dinsert_eq_append {β : Type} (d : Dict β) (k : Int) (v : β)
    (h : k ∉ dkeys d) : dinsert d k v = d ++ [(k, v)] := by
  induction d with
  | nil => simp [dinsert]
  | cons hd tl ih =>
    obtain ⟨k1, v1⟩ := hd
    simp only [dkeys, List.map_cons, List.mem_cons] at h
    push_neg at h
    have h1 : ¬ k1 = k := fun hh => h.1 hh.symm
    simp only [dinsert, if_neg h1, List.cons_append, List.cons.injEq, true_and]
    exact ih h.2

/-- One pin's reported state, mirroring the `GPIOState` dataclass. -/
structure GPIOState where
  pin : Int
  value : Int
  label : Option String
deriving DecidableEq, Repr

/-- The per-pin record stored in `AllGPIOStates.pins`: the inner Python dict
with exactly the keys `pin`, `value`, `label`. -/
structure PinEntry where
  pin : Int
  value : Int
  label : Option String
deriving DecidableEq, Repr

/-- The record `AllGPIOStates.__init__` builds for one `GPIOState`. -/
def toEntry (s : GPIOState) : PinEntry := ⟨s.pin, s.value, s.label⟩

/-- Snapshot container, mirroring the `AllGPIOStates` dataclass: a dict from
pin number to its `PinEntry`. -/
structure AllGPIOStates where
  pins : Dict PinEntry
deriving DecidableEq, Repr

/-- The dict comprehension in `AllGPIOStates.__init__`:
fold the states into a dict keyed by pin. -/
def snapAux (d : Dict PinEntry) (states : List GPIOState) : Dict PinEntry :=
  states.foldl (fun d s => dinsert d s.pin (toEntry s)) d

/-- `AllGPIOStates(states)`. -/
def AllGPIOStates.ofStates (states : List GPIOState) : AllGPIOStates :=
  ⟨snapAux [] states⟩

/-- `AllGPIOStates.to_dict`. -/
def AllGPIOStates.to_dict (a : AllGPIOStates) : Dict PinEntry := a.pins

/-- The `GPIOMonitor` instance data that the claims are about: the
configuration (`_pins`, `_label_map`, `_interval_s`) and the mutable
last-known-value cache (`_last_values`).  The thread and stop event live in
the lifecycle state `LC` below; the callback is represented by collecting
the snapshots passed to it. -/
structure GPIOMonitor where
  pins : List Int
  label_map : Dict String
  interval_s : ℚ
  last_values : Dict Int
deriving DecidableEq, Repr

/-- A freshly constructed monitor: `_last_values` starts as the empty dict. -/
def GPIOMonitor.init (pins : List Int) (label_map : Dict String)
    (interval_s : ℚ) : GPIOMonitor :=
  ⟨pins, label_map, interval_s, []⟩

/-- `GPIOMonitor.get_all_states`: one `GPIOState` per element of the
configured pin list, value `self._last_values.get(pin, 0)`, label
`self._label_map.get(pin)`. -/
def GPIOMonitor.get_all_states (m : GPIOMonitor) : List GPIOState :=
  m.pins.map fun pin => ⟨pin, dgetD m.last_values pin 0, dget? m.label_map pin⟩

/-- The `GPIOState` that `get_all_states` builds for pin `p`. -/
def mkState (m : GPIOMonitor) (p : Int) : GPIOState :=
  ⟨p, dgetD m.last_values p 0, dget? m.label_map p⟩

theorem get_all_states_eq (m : GPIOMonitor) :
    m.get_all_states = m.pins.map (mkState m) := rfl

/-- The last state in the list whose pin is `q` (the one whose entry survives
the dict comprehension in `AllGPIOStates.__init__`). -/
def lastFor (states : List GPIOState) (q : Int) : Option GPIOState :=
  states.reverse.find? (fun s => s.pin == q)

/-- Map the surviving state to its entry, with a fallback for absent keys. -/
def olast (o : Option GPIOState) (fallback : Option PinEntry) : Option PinEntry :=
  match o with
  | some s => some (toEntry s)
  | none => fallback

theorem find?_app {α : Type} (p : α → Bool) (l1 l2 : List α) :
    (l1 ++ l2).find? p = ((l1.find? p).orElse (fun _ => l2.find? p)) := by
  induction l1 with
  | nil => simp
  | cons a tl ih =>
    by_cases h : p a
    · simp [List.find?_cons, h]
    · simp [List.find?_cons, h, ih]

theorem snapAux_get? (states : List GPIOState) :
    ∀ (d : Dict PinEntry) (q : Int),
      dget? (snapAux d states) q = olast (lastFor states q) (dget? d q) := by
  induction states with
  | nil => intro d q; simp [snapAux, lastFor, olast]
  | cons s rest ih =>
    intro d q
    rw [show snapAux d (s :: rest) = snapAux (dinsert d s.pin (toEntry s)) rest from rfl,
      ih]
    have hrev : (s :: rest).reverse = rest.reverse ++ [s] := by simp
    unfold lastFor
    rw [hrev, find?_app]
    cases hl : rest.reverse.find? (fun t => t.pin == q) with
    | some t => simp [olast, lastFor, hl, Option.orElse]
    | none =>
      rw [dget?_dinsert]
      by_cases hq : s.pin = q
      · simp [olast, lastFor, hl, Option.orElse, List.find?_cons, hq]
      · have hb : (s.pin == q) = false := by simp [hq]
        have hq2 : ¬ s.pin = q := hq
        simp [olast, lastFor, hl, Option.orElse, List.find?_cons, hb, hq2]

theorem find?_all_same (q : Int) (r : GPIOState) :
    ∀ (l : List GPIOState), (∀ s ∈ l, s.pin = q → s = r) →
      l.find? (fun s => s.pin == q) =
        if l.any (fun s => s.pin == q) then some r else none := by
  intro l
  induction l with
  | nil => intro _; simp
  | cons a tl ih =>
    intro hall
    by_cases ha : a.pin = q
    · have hr : a = r := hall a (List.mem_cons_self a tl) ha
      subst hr
      simp [List.find?_cons, List.any_cons, ha]
    · have hb : (a.pin == q) = false := by simp [ha]
      simp [List.find?_cons, List.any_cons, hb,
        ih (fun s hs => hall s (List.mem_cons_of_mem _ hs))]

theorem lastFor_get_all_states (m : GPIOMonitor) (q : Int) :
    lastFor m.get_all_states q =
      if q ∈ m.pins then some (mkState m q) else none := by
  have hall : ∀ s ∈ m.get_all_states.reverse, s.pin = q → s = mkState m q := by
    intro s hs hpin
    rw [List.mem_reverse] at hs
    rw [get_all_states_eq] at hs
    obtain ⟨p, hp, rfl⟩ := List.mem_map.mp hs
    have : p = q := hpin
    rw [this]
  have hany : (m.get_all_states.reverse.any (fun s => s.pin == q)) = true
      ↔ q ∈ m.pins := by
    rw [List.any_eq_true]
    constructor
    · rintro ⟨s, hs, hpq⟩
      rw [List.mem_reverse, get_all_states_eq] at hs
      obtain ⟨p, hp, rfl⟩ := List.mem_map.mp hs
      have hpe : p = q := by simpa [mkState] using hpq
      exact hpe ▸ hp
    · intro hq
      refine ⟨mkState m q, ?_, by simp [mkState]⟩
      rw [List.mem_reverse, get_all_states_eq]
      exact List.mem_map.mpr ⟨q, hq, rfl⟩
  unfold lastFor
  rw [find?_all_same q (mkState m q) _ hall]
  by_cases hq : q ∈ m.pins
  · rw [if_pos (hany.mpr hq), if_pos hq]
  · rw [if_neg (fun hh => hq (hany.mp hh)), if_neg hq]

theorem snap_get?_of_mem (m : GPIOMonitor) (q : Int) (hq : q ∈ m.pins) :
    dget? (AllGPIOStates.ofStates m.get_all_states).pins q =
      some ⟨q, dgetD m.last_values q 0, dget? m.label_map q⟩ := by
  show dget? (snapAux [] m.get_all_states) q = _
  rw [snapAux_get?, lastFor_get_all_states, if_pos hq]
  rfl

theorem mem_dkeys_snapAux (states : List GPIOState) :
    ∀ (d : Dict PinEntry) (q : Int),
      q ∈ dkeys (snapAux d states) ↔
        q ∈ dkeys d ∨ q ∈ states.map GPIOState.pin := by
  induction states with
  | nil => intro d q; simp [snapAux]
  | cons s rest ih =>
    intro d q
    rw [show snapAux d (s :: rest) = snapAux (dinsert d s.pin (toEntry s)) rest from rfl,
      ih, mem_dkeys_dinsert]
    simp only [List.map_cons, List.mem_cons]
    tauto

theorem nodup_dkeys_snapAux (states : List GPIOState) :
    ∀ (d : Dict PinEntry), (dkeys d).Nodup → (dkeys (snapAux d states)).Nodup := by
  induction states with
  | nil => intro d h; exact h
  | cons s rest ih => intro d h; exact ih _ (nodup_dkeys_dinsert _ _ _ h)

theorem snapAux_entries (states : List GPIOState) :
    ∀ (d : Dict PinEntry) (e : Int × PinEntry), e ∈ snapAux d states →
      e ∈ d ∨ ∃ s ∈ states, e = (s.pin, toEntry s) := by
  induction states with
  | nil => intro d e h; exact Or.inl h
  | cons s rest ih =>
    intro d e h
    rcases ih _ _ h with h2 | h2
    · rcases mem_dinsert _ _ _ _ h2 with h3 | h3
      · exact Or.inr ⟨s, List.mem_cons_self s rest, h3⟩
      · exact Or.inl h3
    · obtain ⟨t, ht, he⟩ := h2
      exact Or.inr ⟨t, List.mem_cons_of_mem _ ht, he⟩

theorem snapAux_of_nodup (states : List GPIOState) :
    ∀ (d : Dict PinEntry),
      (states.map GPIOState.pin).Nodup →
      (∀ q ∈ states.map GPIOState.pin, q ∉ dkeys d) →
      snapAux d states = d ++ states.map (fun s => (s.pin, toEntry s)) := by
  induction states with
  | nil => intro d _ _; simp [snapAux]
  | cons s rest ih =>
    intro d hnd hdis
    have hs : s.pin ∉ dkeys d := hdis s.pin (by simp)
    have hnd2 : (rest.map GPIOState.pin).Nodup := by
      simp only [List.map_cons, List.nodup_cons] at hnd
      exact hnd.2
    have hne : s.pin ∉ rest.map GPIOState.pin := by
      simp only [List.map_cons, List.nodup_cons] at hnd
      exact hnd.1
    have hdis2 : ∀ q ∈ rest.map GPIOState.pin,
        q ∉ dkeys (d ++ [(s.pin, toEntry s)]) := by
      intro q hq
      have h1 : q ∉ dkeys d := hdis q (by simp [hq])
      have h2 : ¬ q = s.pin := fun hh => hne (hh ▸ hq)
      have hk : dkeys (d ++ [(s.pin, toEntry s)]) = dkeys d ++ [s.pin] := by
        simp [dkeys]
      rw [hk, List.mem_append]
      rintro (hc | hc)
      · exact h1 hc
      · exact h2 (by simpa using hc)
    rw [show snapAux d (s :: rest) = snapAux (dinsert d s.pin (toEntry s)) rest from rfl,
      dinsert_eq_append d s.pin (toEntry s) hs, ih _ hnd2 hdis2]
    simp

/-- A raw Python value that a hardware read (`GPIO.input`) can return:
a bool or an int. -/
inductive RawVal : Type
  | bool : Bool → RawVal
  | int : Int → RawVal
deriving DecidableEq, Repr

/-- Python `int(value)`: the identity on ints, 0 or 1 on bools. -/
def pyInt : RawVal → Int
  | .bool b => if b then 1 else 0
  | .int n => n

/-- The read pass of one `_loop` iteration: for each pin of `self._pins`
in list order, `self._last_values[pin] = int(value)` where `value` is the
hardware read (the oracle `read`). -/
def readPins (read : Int → RawVal) (m : GPIOMonitor) : GPIOMonitor :=
  { m with last_values :=
      m.pins.foldl (fun c p => dinsert c p (pyInt (read p))) m.last_values }

/-- One `_loop` iteration with hardware present: read every configured pin,
then build `AllGPIOStates(self.get_all_states())`, the snapshot passed to
the callback.  The trailing `time.sleep(self._interval_s)` has no effect on
the state and is not modelled. -/
def tick (read : Int → RawVal) (m : GPIOMonitor) : GPIOMonitor × AllGPIOStates :=
  let m2 := readPins read m
  (m2, AllGPIOStates.ofStates m2.get_all_states)

/-- `n` iterations of `_loop` starting at tick index `k`, collecting the
snapshots handed to the callback, in order. -/
def runFrom (read : Nat → Int → RawVal) :
    Nat → Nat → GPIOMonitor → GPIOMonitor × List AllGPIOStates
  | _, 0, m => (m, [])
  | k, n + 1, m =>
    let r1 := tick (read k) m
    let r2 := runFrom read (k + 1) n r1.1
    (r2.1, r1.2 :: r2.2)

theorem readPins_pins (read : Int → RawVal) (m : GPIOMonitor) :
    (readPins read m).pins = m.pins := rfl

theorem readPins_label_map (read : Int → RawVal) (m : GPIOMonitor) :
    (readPins read m).label_map = m.label_map := rfl

theorem foldl_dinsert_getD (g : Int → Int) (pins : List Int) :
    ∀ (c : Dict Int) (q : Int),
      dgetD (pins.foldl (fun c p => dinsert c p (g p)) c) q 0 =
        if q ∈ pins then g q else dgetD c q 0 := by
  induction pins with
  | nil => intro c q; simp
  | cons p rest ih =>
    intro c q
    rw [List.foldl_cons, ih]
    by_cases hq : q ∈ rest
    · simp [hq]
    · rw [if_neg hq, dgetD_dinsert]
      by_cases hpq : q = p
      · subst hpq
        simp
      · have hpq2 : ¬ p = q := fun hh => hpq hh.symm
        have : ¬ q ∈ p :: rest := by simp [List.mem_cons, hpq, hq]
        simp [hpq2, this]

theorem readPins_getD (read : Int → RawVal) (m : GPIOMonitor) (q : Int)
    (hq : q ∈ m.pins) :
    dgetD (readPins read m).last_values q 0 = pyInt (read q) := by
  simp only [readPins]
  rw [foldl_dinsert_getD (fun p => pyInt (read p)) m.pins m.last_values q,
    if_pos hq]

/-- Whether an `Except` value is an exception. -/
def isErr {ε α : Type} : Except ε α → Bool
  | .error _ => true
  | .ok _ => false

/-- The read pass when `GPIO.input` may raise: the source's loop body has no
try/except, so the first exception aborts the pass; writes made before it
persist.  The boolean is `true` when the pass completed. -/
def readPinsE (read : Int → Except Unit RawVal) :
    List Int → Dict Int → Dict Int × Bool
  | [], c => (c, true)
  | p :: rest, c =>
    match read p with
    | .error _ => (c, false)
    | .ok v => readPinsE read rest (dinsert c p (pyInt v))

/-- One `_loop` iteration when reads may raise: the snapshot is built and
passed to the callback only if the read pass completed. -/
def tickE (read : Int → Except Unit RawVal) (m : GPIOMonitor) :
    GPIOMonitor × Option AllGPIOStates :=
  let r := readPinsE read m.pins m.last_values
  let m2 : GPIOMonitor := { m with last_values := r.1 }
  if r.2 then (m2, some (AllGPIOStates.ofStates m2.get_all_states))
  else (m2, none)

/-- Up to `n` iterations of `_loop` when reads may raise: an uncaught
exception ends the loop (the thread dies); the final boolean records that
the loop aborted. -/
def runFromE (read : Nat → Int → Except Unit RawVal) :
    Nat → Nat → GPIOMonitor → GPIOMonitor × (List AllGPIOStates × Bool)
  | _, 0, m => (m, ([], false))
  | k, n + 1, m =>
    match tickE (read k) m with
    | (m2, none) => (m2, ([], true))
    | (m2, some s) =>
      let r2 := runFromE read (k + 1) n m2
      (r2.1, (s :: r2.2.1, r2.2.2))

theorem readPinsE_any_err (read : Int → Except Unit RawVal) :
    ∀ (pins : List Int) (c : Dict Int),
      (pins.any fun p => isErr (read p)) = true →
      (readPinsE read pins c).2 = false := by
  intro pins
  induction pins with
  | nil => intro c h; simp at h
  | cons p rest ih =>
    intro c h
    cases hr : read p with
    | error e => simp [readPinsE, hr]
    | ok v =>
      have h2 : (rest.any fun p => isErr (read p)) = true := by
        simp only [List.any_cons, hr, isErr, Bool.false_or] at h
        exact h
      simp [readPinsE, hr, ih _ h2]

theorem tickE_err (read : Int → Except Unit RawVal) (m : GPIOMonitor)
    (h : (m.pins.any fun p => isErr (read p)) = true) :
    (tickE read m).2 = none := by
  simp [tickE, readPinsE_any_err read m.pins m.last_values h]

theorem runFromE_abort (read : Nat → Int → Except Unit RawVal) (n : Nat)
    (m : GPIOMonitor)
    (h : (m.pins.any fun p => isErr (read 0 p)) = true) :
    (runFromE read 0 (n + 1) m).2 = ([], true) := by
  have h2 : (tickE (read 0) m).2 = none := tickE_err (read 0) m h
  rcases htick : tickE (read 0) m with ⟨m2, o⟩
  rw [htick] at h2
  simp only at h2
  subst h2
  simp [runFromE, htick]

/-- Lifecycle state of a `GPIOMonitor` instance together with the facts
about the optional hardware module that the source manipulates:
`thread_alive` models `self._thread and self._thread.is_alive()`,
`stop_flag` the `_stop` event, `threads_started` counts how many background
threads were ever started, `pins_setup` that `GPIO.setup(pin, GPIO.IN)` ran
for the configured pins, and `cleaned_up` that `GPIO.cleanup()` ran. -/
structure LC where
  mon : GPIOMonitor
  thread_alive : Bool
  stop_flag : Bool
  threads_started : Nat
  pins_setup : Bool
  cleaned_up : Bool
deriving DecidableEq, Repr

/-- A freshly constructed monitor: no thread, stop event unset. -/
def LC.init (pins : List Int) (label_map : Dict String) (interval_s : ℚ) : LC :=
  ⟨GPIOMonitor.init pins label_map interval_s, false, false, 0, false, false⟩

/-- `GPIOMonitor.start`.  `gpioAvailable` says whether the optional
`RPi.GPIO` module imported; when it did not, the method returns before any
hardware setup or thread creation.  When a thread is already alive the
method returns unchanged.  Otherwise it sets the pins up for input, clears
the stop event and starts the background thread.  Every path returns
normally. -/
def start (gpioAvailable : Bool) (lc : LC) : LC :=
  if gpioAvailable = false then lc
  else if lc.thread_alive then lc
  else { lc with pins_setup := true, stop_flag := false, thread_alive := true,
                 threads_started := lc.threads_started + 1 }

/-- `GPIOMonitor.stop`: set the stop event; join the thread (bounded by the
1-second timeout) when one is alive — `exitsInTime` says whether the loop
exited within the bound; then call `GPIO.cleanup()` whenever the hardware
module is present.  Every path returns normally. -/
def stop (gpioAvailable exitsInTime : Bool) (lc : LC) : LC :=
  let lc1 := { lc with stop_flag := true }
  let lc2 := if lc1.thread_alive && exitsInTime
             then { lc1 with thread_alive := false } else lc1
  if gpioAvailable then { lc2 with cleaned_up := true } else lc2

/-- The literal 1-second bound passed to the thread join in
`GPIOMonitor.stop`. -/
def joinTimeout_s : ℚ := 1

/-- The snapshots the registered callback receives during `n` loop
iterations after `start`: the loop body only ever runs on the background
thread, so nothing is emitted unless `start` actually started one. -/
def observedCallbacks (gpioAvailable : Bool) (read : Nat → Int → RawVal)
    (n : Nat) (lc : LC) : List AllGPIOStates :=
  let lc2 := start gpioAvailable lc
  if lc2.thread_alive then (runFrom read 0 n lc2.mon).2 else []

/-- Shared-state view for the concurrency analysis: the loop thread is about
to perform the per-pin cache writes `writes` (one `_last_values[pin] = v`
each) while another thread runs `get_all_states`, about to perform the
per-pin cache reads `reads` (one `_last_values.get(pin, 0)` each, results
accumulating in `obs`).  Each single dict operation is atomic under the
interpreter lock; the source takes no further lock, so the steps of the two
threads may interleave arbitrarily. -/
structure Conc where
  cache : Dict Int
  writes : List (Int × Int)
  reads : List Int
  obs : List (Int × Int)
deriving DecidableEq, Repr

/-- One atomic step: `writerTurn` selects which thread performs its next
single dict operation (no-op when that thread is done). -/
def cstep (writerTurn : Bool) (s : Conc) : Conc :=
  if writerTurn then
    match s.writes with
    | [] => s
    | (p, v) :: rest => { s with cache := dinsert s.cache p v, writes := rest }
  else
    match s.reads with
    | [] => s
    | p :: rest =>
      { s with obs := s.obs ++ [(p, dgetD s.cache p 0)], reads := rest }

/-- Run an interleaving schedule. -/
def crun (sched : List Bool) (s : Conc) : Conc :=
  sched.foldl (fun s b => cstep b s) s

/-- All intermediate states along a schedule, the initial one included. -/
def ctrace (sched : List Bool) (s : Conc) : List Conc :=
  sched.scanl (fun s b => cstep b s) s

/-- The cache instantaneously restricted to two pins of interest. -/
def cview (c : Dict Int) (p1 p2 : Int) : Int × Int :=
  (dgetD c p1 0, dgetD c p2 0)

theorem crun_cons (b : Bool) (sched : List Bool) (s : Conc) :
    crun (b :: sched) s = crun sched (cstep b s) := rfl

theorem crun_append (l1 l2 : List Bool) (s : Conc) :
    crun (l1 ++ l2) s = crun l2 (crun l1 s) := by
  unfold crun
  rw [List.foldl_append]

theorem cstep_true_frame (s : Conc) :
    (cstep true s).obs = s.obs ∧ (cstep true s).reads = s.reads := by
  cases hw : s.writes with
  | nil => simp [cstep, hw]
  | cons w rest =>
    obtain ⟨p, v⟩ := w
    simp [cstep, hw]

theorem crun_writer_frame (a : Nat) : ∀ s : Conc,
    (crun (List.replicate a true) s).obs = s.obs ∧
    (crun (List.replicate a true) s).reads = s.reads := by
  induction a with
  | zero => intro s; exact ⟨rfl, rfl⟩
  | succ n ih =>
    intro s
    rw [List.replicate_succ, crun_cons]
    rcases ih (cstep true s) with ⟨h1, h2⟩
    rcases cstep_true_frame s with ⟨h3, h4⟩
    exact ⟨h1.trans h3, h2.trans h4⟩

theorem crun_reads_block : ∀ (rs : List Int) (s : Conc), s.reads = rs →
    (crun (List.replicate rs.length false) s).obs
        = s.obs ++ rs.map (fun p => (p, dgetD s.cache p 0)) ∧
    (crun (List.replicate rs.length false) s).cache = s.cache := by
  intro rs
  induction rs with
  | nil => intro s h; simp [crun]
  | cons p rest ih =>
    intro s h
    have hstep : cstep false s =
        { s with obs := s.obs ++ [(p, dgetD s.cache p 0)], reads := rest } := by
      simp [cstep, h]
    have hrun : crun (List.replicate (p :: rest).length false) s
        = crun (List.replicate rest.length false) (cstep false s) := by
      rw [List.length_cons, List.replicate_succ, crun_cons]
    rcases ih ({ s with obs := s.obs ++ [(p, dgetD s.cache p 0)], reads := rest })
        rfl with ⟨h1, h2⟩
    rw [hrun, hstep]
    constructor
    · rw [h1]
      simp
    · exact h2

theorem get_all_states_pins (m : GPIOMonitor) :
    m.get_all_states.map GPIOState.pin = m.pins := by
  rw [get_all_states_eq, List.map_map]
  exact List.map_id m.pins

theorem get_all_states_init (pins : List Int) (label_map : Dict String)
    (iv : ℚ) :
    (GPIOMonitor.init pins label_map iv).get_all_states
      = pins.map (fun p => ⟨p, 0, dget? label_map p⟩) := by
  simp [GPIOMonitor.get_all_states, GPIOMonitor.init, dgetD, dget?]

/-- Every snapshot a run emits is the snapshot of a monitor state with the
same configuration as the starting one. -/
theorem runFrom_snap_mem (read : Nat → Int → RawVal) :
    ∀ (n k : Nat) (m : GPIOMonitor) (snap : AllGPIOStates),
      snap ∈ (runFrom read k n m).2 →
      ∃ m2 : GPIOMonitor, m2.pins = m.pins ∧ m2.label_map = m.label_map ∧
        snap = AllGPIOStates.ofStates m2.get_all_states := by
  intro n
  induction n with
  | zero => intro k m snap h; simp [runFrom] at h
  | succ nn ih =>
    intro k m snap h
    have hstruct : (runFrom read k (nn + 1) m).2
        = (AllGPIOStates.ofStates ((readPins (read k) m).get_all_states))
          :: (runFrom read (k + 1) nn (readPins (read k) m)).2 := rfl
    rw [hstruct, List.mem_cons] at h
    rcases h with h | h
    · exact ⟨readPins (read k) m, rfl, rfl, h⟩
    · obtain ⟨m2, h1, h2, h3⟩ := ih (k + 1) (readPins (read k) m) snap h
      exact ⟨m2, h1, h2, h3⟩

/-- The cache invariant the normalization claim is about. -/
def cacheZeroOne (c : Dict Int) : Prop :=
  ∀ p : Int, dgetD c p 0 = 0 ∨ dgetD c p 0 = 1

/-- The hardware capability contract of the spec: a digital read returns
0 or 1, possibly as a Python bool. -/
def contractReads (read : Nat → Int → RawVal) : Prop :=
  ∀ (k : Nat) (p : Int),
    read k p = RawVal.bool true ∨ read k p = RawVal.bool false ∨
    read k p = RawVal.int 0 ∨ read k p = RawVal.int 1

theorem contractReads_pyInt (read : Nat → Int → RawVal)
    (hr : contractReads read) (k : Nat) (p : Int) :
    pyInt (read k p) = 0 ∨ pyInt (read k p) = 1 := by
  rcases hr k p with h | h | h | h <;> rw [h] <;> simp [pyInt]

theorem readPins_zeroOne (read : Int → RawVal)
    (hr : ∀ p, pyInt (read p) = 0 ∨ pyInt (read p) = 1)
    (m : GPIOMonitor) (hc : cacheZeroOne m.last_values) :
    cacheZeroOne (readPins read m).last_values := by
  intro q
  simp only [readPins]
  rw [foldl_dinsert_getD]
  by_cases hq : q ∈ m.pins
  · rw [if_pos hq]; exact hr q
  · rw [if_neg hq]; exact hc q

theorem snap_entry_value (m : GPIOMonitor) (hc : cacheZeroOne m.last_values)
    (e : Int × PinEntry)
    (he : e ∈ (AllGPIOStates.ofStates m.get_all_states).pins) :
    e.2.value = 0 ∨ e.2.value = 1 := by
  rcases snapAux_entries m.get_all_states [] e he with h | h
  · simp at h
  · obtain ⟨s, hs, he2⟩ := h
    rw [get_all_states_eq] at hs
    obtain ⟨p, hp, hps⟩ := List.mem_map.mp hs
    rw [he2, ← hps]
    exact hc p

theorem runFrom_zeroOne (read : Nat → Int → RawVal)
    (hr : ∀ (k : Nat) (p : Int), pyInt (read k p) = 0 ∨ pyInt (read k p) = 1) :
    ∀ (n k : Nat) (m : GPIOMonitor), cacheZeroOne m.last_values →
      cacheZeroOne ((runFrom read k n m).1.last_values) ∧
      ∀ snap ∈ (runFrom read k n m).2, ∀ e ∈ snap.pins,
        e.2.value = 0 ∨ e.2.value = 1 := by
  intro n
  induction n with
  | zero =>
    intro k m hc
    exact ⟨hc, by intro snap h; simp [runFrom] at h⟩
  | succ nn ih =>
    intro k m hc
    have hc1 : cacheZeroOne (readPins (read k) m).last_values :=
      readPins_zeroOne (read k) (hr k) m hc
    rcases ih (k + 1) (readPins (read k) m) hc1 with ⟨h1, h2⟩
    constructor
    · exact h1
    · intro snap hsnap e he
      have hstruct : (runFrom read k (nn + 1) m).2
          = (AllGPIOStates.ofStates ((readPins (read k) m).get_all_states))
            :: (runFrom read (k + 1) nn (readPins (read k) m)).2 := rfl
      rw [hstruct, List.mem_cons] at hsnap
      rcases hsnap with hsnap | hsnap
      · subst hsnap
        exact snap_entry_value (readPins (read k) m) hc1 e he
      · exact h2 snap hsnap e he

/-- The i-th snapshot a run emits reports, for every configured pin,
exactly the value read at tick k + i. -/
theorem runFrom_getElem? (read : Nat → Int → RawVal) :
    ∀ (n k : Nat) (m : GPIOMonitor) (i : Nat) (snap : AllGPIOStates),
      ((runFrom read k n m).2)[i]? = some snap →
      ∀ p ∈ m.pins, dget? snap.pins p
        = some ⟨p, pyInt (read (k + i) p), dget? m.label_map p⟩ := by
  intro n
  induction n with
  | zero => intro k m i snap h; simp [runFrom] at h
  | succ nn ih =>
    intro k m i snap h p hp
    have hstruct : (runFrom read k (nn + 1) m).2
        = (AllGPIOStates.ofStates ((readPins (read k) m).get_all_states))
          :: (runFrom read (k + 1) nn (readPins (read k) m)).2 := rfl
    rw [hstruct] at h
    cases i with
    | zero =>
      rw [List.getElem?_cons_zero] at h
      have hsnap := Option.some.inj h
      have hres := snap_get?_of_mem (readPins (read k) m) p
        (by rw [readPins_pins]; exact hp)
      rw [readPins_getD (read k) m p hp, readPins_label_map] at hres
      rw [← hsnap, hres, Nat.add_zero]
    | succ j =>
      rw [List.getElem?_cons_succ] at h
      have hres := ih (k + 1) (readPins (read k) m) j snap h p
        (by rw [readPins_pins]; exact hp)
      rw [readPins_label_map] at hres
      have harith : k + (j + 1) = k + 1 + j := by omega
      rw [harith]
      exact hres

/-- Claim C1, counterexample: with the duplicated (but per the claim
admissible) configuration [5, 5], the snapshot delivered to the callback on
the first tick has a single entry, not one entry per configured pin: the
dict comprehension in `AllGPIOStates.__init__` collapses the two entries
`get_all_states` produced. -/
theorem c1_counterexample :
    ((runFrom (fun _ _ => RawVal.int 0) 0 1 (GPIOMonitor.init [5, 5] [] 1)).2.map
        (fun s => s.pins.length)) = [1] ∧
    (GPIOMonitor.init [5, 5] [] 1).pins.length = 2 := ⟨rfl, rfl⟩

/-- Claim C1 as amended: for every configuration and every read oracle
(hardware present or absent), `get_all_states` returns exactly one entry
per position of the configured pin list, in order; every snapshot (built
from the pull accessor's list or delivered to the callback on any tick) has
a duplicate-free key set containing exactly the configured pin identifiers;
and when the configured list has no duplicate pins the snapshot's key list
is exactly the configured list — one entry per configured pin. -/
theorem c1_amended_completeness (m : GPIOMonitor) (q : Int)
    (read : Nat → Int → RawVal) (k n : Nat) :
    (m.get_all_states.map GPIOState.pin = m.pins) ∧
    (q ∈ dkeys (AllGPIOStates.ofStates m.get_all_states).pins ↔ q ∈ m.pins) ∧
    (dkeys (AllGPIOStates.ofStates m.get_all_states).pins).Nodup ∧
    (m.pins.Nodup →
      dkeys (AllGPIOStates.ofStates m.get_all_states).pins = m.pins) ∧
    (∀ snap ∈ (runFrom read k n m).2,
      (q ∈ dkeys snap.pins ↔ q ∈ m.pins) ∧ (dkeys snap.pins).Nodup) := by
  have hmem : ∀ m2 : GPIOMonitor, ∀ q2 : Int,
      q2 ∈ dkeys (AllGPIOStates.ofStates m2.get_all_states).pins ↔ q2 ∈ m2.pins := by
    intro m2 q2
    show q2 ∈ dkeys (snapAux [] m2.get_all_states) ↔ _
    rw [mem_dkeys_snapAux, get_all_states_pins]
    simp [dkeys]
  have hnodup : ∀ m2 : GPIOMonitor,
      (dkeys (AllGPIOStates.ofStates m2.get_all_states).pins).Nodup := by
    intro m2
    exact nodup_dkeys_snapAux m2.get_all_states [] (by simp [dkeys])
  refine ⟨get_all_states_pins m, hmem m q, hnodup m, ?_, ?_⟩
  · intro hnd
    have hnd2 : (m.get_all_states.map GPIOState.pin).Nodup := by
      rw [get_all_states_pins]; exact hnd
    have heq := snapAux_of_nodup m.get_all_states [] hnd2 (by simp [dkeys])
    show dkeys (snapAux [] m.get_all_states) = m.pins
    rw [heq]
    have : dkeys (List.map (fun s => (s.pin, toEntry s)) m.get_all_states)
        = m.get_all_states.map GPIOState.pin := by
      simp [dkeys, List.map_map]
    rw [List.nil_append, this, get_all_states_pins]
  · intro snap hsnap
    obtain ⟨m2, hpins, _, hform⟩ := runFrom_snap_mem read n k m snap hsnap
    constructor
    · rw [hform, hmem m2 q, hpins]
    · rw [hform]; exact hnodup m2

/-- Witness for the amended C1 at the E2E-1 configuration. -/
theorem c1_amended_witness :
    dkeys (AllGPIOStates.ofStates
        (GPIOMonitor.init [17, 27] [(17, "button")] 1).get_all_states).pins
      = [17, 27] :=
  (c1_amended_completeness (GPIOMonitor.init [17, 27] [(17, "button")] 1) 17
    (fun _ _ => RawVal.int 0) 0 1).2.2.2.1 (by decide)

/-- Claim C2, counterexample: a failing hardware read for pin 17 makes the
tick emit no snapshot at all (not a snapshot covering the other pin 27 with
17 degraded to 0), and the loop aborts instead of continuing: over three
scheduled iterations nothing is emitted and the run ends aborted. -/
theorem c2_counterexample :
    (tickE (fun p => if p = (17 : Int) then Except.error ()
        else Except.ok (RawVal.int 1)) (GPIOMonitor.init [17, 27] [] 1)).2
      = none ∧
    (runFromE (fun _ p => if p = (17 : Int) then Except.error ()
        else Except.ok (RawVal.int 1)) 0 3 (GPIOMonitor.init [17, 27] [] 1)).2
      = ([], true) := ⟨rfl, rfl⟩

/-- Claim C2 as amended: the loop body of `_loop` has no exception
handling, so whenever reading any configured pin raises, the tick does not
complete: no snapshot is emitted for that tick (not even one covering the
other pins), and the exception kills the sampling loop.  Degradation to 0
happens only when the hardware module is absent altogether, in which case
reads never raise. -/
theorem c2_amended_read_failure (read : Int → Except Unit RawVal)
    (m : GPIOMonitor) (reads : Nat → Int → Except Unit RawVal) (n : Nat)
    (h : (m.pins.any fun p => isErr (read p)) = true)
    (h0 : (m.pins.any fun p => isErr (reads 0 p)) = true) :
    (tickE read m).2 = none ∧ (runFromE reads 0 (n + 1) m).2 = ([], true) :=
  ⟨tickE_err read m h, runFromE_abort reads n m h0⟩

/-- Witness for the amended C2 at a concrete failing read. -/
theorem c2_amended_witness :
    (tickE (fun p => if p = (27 : Int) then Except.error ()
        else Except.ok (RawVal.int 0)) (GPIOMonitor.init [17, 27] [] 1)).2
      = none ∧
    (runFromE (fun _ p => if p = (27 : Int) then Except.error ()
        else Except.ok (RawVal.int 0)) 0 2 (GPIOMonitor.init [17, 27] [] 1)).2
      = ([], true) :=
  c2_amended_read_failure
    (fun p => if p = (27 : Int) then Except.error () else Except.ok (RawVal.int 0))
    (GPIOMonitor.init [17, 27] [] 1)
    (fun _ p => if p = (27 : Int) then Except.error () else Except.ok (RawVal.int 0))
    1 (by decide) (by decide)

/-- Claim C3: under the hardware capability contract (a digital read
returns 0 or 1, possibly as a Python bool), normalization to exactly 0 or 1
is an invariant of the last-known-value cache from construction through any
number of ticks; hence every value `get_all_states` reports and every value
inside every emitted snapshot is exactly 0 or 1.  (Python's `int(value)`
maps the contract's values to exactly 0 and 1; the degraded-mode read,
always 0, satisfies the contract trivially.) -/
theorem c3_value_normalization (read : Nat → Int → RawVal)
    (hr : contractReads read) (pins : List Int) (label_map : Dict String)
    (iv : ℚ) (n k : Nat) :
    cacheZeroOne
      ((runFrom read k n (GPIOMonitor.init pins label_map iv)).1.last_values) ∧
    (∀ s ∈ (runFrom read k n (GPIOMonitor.init pins label_map iv)).1.get_all_states,
      s.value = 0 ∨ s.value = 1) ∧
    (∀ snap ∈ (runFrom read k n (GPIOMonitor.init pins label_map iv)).2,
      ∀ e ∈ snap.pins, e.2.value = 0 ∨ e.2.value = 1) := by
  have hinit : cacheZeroOne (GPIOMonitor.init pins label_map iv).last_values := by
    intro p
    left
    rfl
  rcases runFrom_zeroOne read (contractReads_pyInt read hr) n k
      (GPIOMonitor.init pins label_map iv) hinit with ⟨h1, h2⟩
  refine ⟨h1, ?_, h2⟩
  intro s hs
  rw [get_all_states_eq] at hs
  obtain ⟨p, hp, hps⟩ := List.mem_map.mp hs
  rw [← hps]
  exact h1 p

/-- Witness for C3 with an always-high (Python bool) read. -/
theorem c3_witness :
    cacheZeroOne ((runFrom (fun _ _ => RawVal.bool true) 0 1
        (GPIOMonitor.init [17] [] 1)).1.last_values) :=
  (c3_value_normalization (fun _ _ => RawVal.bool true)
    (fun _ _ => Or.inl rfl) [17] [] 1 1 0).1

/-- Claim C4: with the hardware module unavailable, `start` returns
normally and changes nothing (no thread, no exception path exercised); and
`get_all_states` called before any tick has occurred — on a freshly
constructed monitor, whether started in degraded mode or started with
hardware present but not yet ticked — returns every configured pin with
value 0 and the label from the label map (`none` when the pin has no
entry). -/
theorem c4_degraded_start_and_defaults (g : Bool) (lc : LC) (pins : List Int)
    (label_map : Dict String) (iv : ℚ) :
    start false lc = lc ∧
    (start g (LC.init pins label_map iv)).mon.get_all_states
      = pins.map (fun p => ⟨p, 0, dget? label_map p⟩) := by
  constructor
  · simp [start]
  · have hmon : (start g (LC.init pins label_map iv)).mon
        = GPIOMonitor.init pins label_map iv := by
      cases g <;> simp [start, LC.init]
    rw [hmon, get_all_states_init]

/-- Claim C5, counterexample: on a platform without the hardware module,
with pin list [5], `start` creates no sampling thread, so over three loop
intervals the callback is invoked zero times — not a steady stream of
all-zero snapshots. -/
theorem c5_counterexample :
    observedCallbacks false (fun _ _ => RawVal.int 0) 3 (LC.init [5] [] 1)
      = [] := rfl

/-- Claim C5 as amended: with no hardware module, `start` returns before
creating a thread, so the sampler stays permanently idle: the callback
never fires (no snapshots are delivered over any number of intervals), and
a consumer instead pulls states via `get_all_states`, which returns every
configured pin with value 0 and its label. -/
theorem c5_amended_degraded_idle (read : Nat → Int → RawVal) (n : Nat)
    (pins : List Int) (label_map : Dict String) (iv : ℚ) :
    observedCallbacks false read n (LC.init pins label_map iv) = [] ∧
    (start false (LC.init pins label_map iv)).threads_started = 0 ∧
    (LC.init pins label_map iv).mon.get_all_states
      = pins.map (fun p => ⟨p, 0, dget? label_map p⟩) := by
  refine ⟨?_, ?_, get_all_states_init pins label_map iv⟩
  · simp [observedCallbacks, start, LC.init]
  · simp [start, LC.init]

/-- Claim C6: `start` is idempotent — a second call while the thread is
alive returns at once, creating no second loop (the started-threads count
does not change, and from a fresh monitor it is at most one) — and `stop`
is total and idempotent: called twice in a row it is a no-op the second
time, and called on a never-started monitor it simply records the stop
signal and the cleanup, raising nothing on any path. -/
theorem c6_idempotent_lifecycle (g e : Bool) (lc : LC) (pins : List Int)
    (label_map : Dict String) (iv : ℚ) :
    start g (start g lc) = start g lc ∧
    (start g (start g lc)).threads_started = (start g lc).threads_started ∧
    (start g (LC.init pins label_map iv)).threads_started ≤ 1 ∧
    stop g e (stop g e lc) = stop g e lc ∧
    stop g e (LC.init pins label_map iv)
      = { LC.init pins label_map iv with stop_flag := true, cleaned_up := g } := by
  refine ⟨?_, ?_, ?_, ?_, ?_⟩
  · cases g with
    | false => simp [start]
    | true => by_cases h : lc.thread_alive <;> simp [start, h]
  · cases g with
    | false => simp [start]
    | true => by_cases h : lc.thread_alive <;> simp [start, h]
  · cases g <;> simp [start, LC.init]
  · cases g <;> cases e <;> by_cases h : lc.thread_alive <;> simp [stop, h]
  · cases g <;> cases e <;> simp [stop, LC.init]

/-- Claim C7: each `_loop` iteration first writes every configured pin's
read value into the cache (the whole list, in configured order), and only
then builds the one snapshot — from the full cache and the label map — that
the callback receives synchronously; the sleep that follows changes no
state.  Hence the i-th emitted snapshot carries, for every configured pin,
exactly the value read at tick i: no snapshot mixes cache state from two
different ticks. -/
theorem c7_tick_atomicity (read : Int → RawVal) (m : GPIOMonitor)
    (reads : Nat → Int → RawVal) (n k i : Nat) (snap : AllGPIOStates) :
    (tick read m).1 = readPins read m ∧
    (tick read m).2
      = AllGPIOStates.ofStates ((readPins read m).get_all_states) ∧
    (∀ p ∈ m.pins, dgetD (readPins read m).last_values p 0 = pyInt (read p)) ∧
    (((runFrom reads k n m).2)[i]? = some snap →
      ∀ p ∈ m.pins, dget? snap.pins p
        = some ⟨p, pyInt (reads (k + i) p), dget? m.label_map p⟩) :=
  ⟨rfl, rfl, fun p hp => readPins_getD read m p hp,
    fun h p hp => runFrom_getElem? reads n k m i snap h p hp⟩

/-- Witness for C7: the second emitted snapshot of a two-tick run reports
for pin 17 exactly the tick-1 read. -/
theorem c7_witness :
    dget? (AllGPIOStates.ofStates ((readPins (fun _ => RawVal.int 1)
        (readPins (fun _ => RawVal.int 0)
          (GPIOMonitor.init [17] [] 1))).get_all_states)).pins 17
      = some ⟨17, 1, none⟩ := by
  have h := (c7_tick_atomicity (fun _ => RawVal.int 0)
      (GPIOMonitor.init [17] [] 1)
      (fun (t : Nat) (_ : Int) => RawVal.int (Int.ofNat t)) 2 0 1
      (AllGPIOStates.ofStates ((readPins (fun _ => RawVal.int 1)
        (readPins (fun _ => RawVal.int 0)
          (GPIOMonitor.init [17] [] 1))).get_all_states))).2.2.2
    (by rfl) 17 (by decide)
  simpa using h

/-- Claim C8: `stop` signals the loop to terminate (the stop event is set),
joins the thread with the fixed 1-second bound, and then — whether or not
the loop exited in time — performs the hardware cleanup whenever the module
is present, returning normally on every path: the join timing out changes
nothing about the cleanup. -/
theorem c8_stop_releases (g e : Bool) (lc : LC) :
    (stop g e lc).stop_flag = true ∧
    (stop g e lc).cleaned_up = (g || lc.cleaned_up) ∧
    (stop g false lc).cleaned_up = (stop g true lc).cleaned_up ∧
    joinTimeout_s = 1 := by
  refine ⟨?_, ?_, ?_, rfl⟩ <;>
    cases g <;> cases e <;> by_cases h : lc.thread_alive <;> simp [stop, h]

/-- The shared state for the C9 interleaving counterexample: the cache has
both pins at 0, the loop is about to write 1 to pin 1 then 1 to pin 2
(one tick's writes), and a concurrent `get_all_states` is about to read
pin 1 then pin 2. -/
def conc0 : Conc := ⟨[], [(1, 1), (2, 1)], [1, 2], []⟩

/-- The interleaving: the reader reads pin 1, then the writer performs both
writes, then the reader reads pin 2. -/
def csched : List Bool := [false, true, true, false]

/-- Claim C9, counterexample: the cache is a plain dict accessed without
any lock, so the loop's per-pin writes can interleave with the per-pin
reads of a concurrent `get_all_states`.  Under `csched` the reader observes
pin 1 at 0 and pin 2 at 1 — a combination that is not a point-in-time copy
of the cache at any moment of the execution (the cache only ever held
(0,0), (1,0), (1,1)): the read mixes two ticks. -/
theorem c9_counterexample :
    (crun csched conc0).obs = [(1, 0), (2, 1)] ∧
    (dgetD (crun csched conc0).obs 1 0, dgetD (crun csched conc0).obs 2 0)
      ∉ (ctrace csched conc0).map (fun s => cview s.cache 1 2) :=
  ⟨rfl, by decide⟩

/-- Claim C9 as amended: the stop event is a thread-safe primitive and each
single cache access is one atomic dict operation, but no lock is held
across the per-pin reads of `get_all_states`; a reader observes a
point-in-time copy of the cache exactly when its read pass is not
interleaved with the loop's writes — in any schedule that runs the whole
read pass between two blocks of writer steps, the observation equals the
cache at that point — while interleaved schedules can observe a mixture of
two ticks (see the counterexample). -/
theorem c9_amended_no_lock (a b : Nat) (s : Conc) (h : s.obs = []) :
    (crun (List.replicate a true ++ List.replicate s.reads.length false
        ++ List.replicate b true) s).obs
      = s.reads.map
          (fun p => (p, dgetD (crun (List.replicate a true) s).cache p 0)) := by
  rw [crun_append, crun_append]
  rcases crun_writer_frame a s with ⟨hobs1, hreads1⟩
  rcases crun_writer_frame b
      (crun (List.replicate s.reads.length false)
        (crun (List.replicate a true) s)) with ⟨hobs3, _⟩
  rw [hobs3]
  have hlen : s.reads.length = (crun (List.replicate a true) s).reads.length := by
    rw [hreads1]
  rw [hlen]
  rcases crun_reads_block (crun (List.replicate a true) s).reads
      (crun (List.replicate a true) s) rfl with ⟨hobs2, _⟩
  rw [hobs2, hreads1, hobs1, h, List.nil_append]

/-- Witness for the amended C9: one writer step, then the full
uninterleaved read pass, observes exactly the cache after that write. -/
theorem c9_amended_witness :
    (crun (List.replicate 1 true ++ List.replicate conc0.reads.length false
        ++ List.replicate 0 true) conc0).obs
      = conc0.reads.map
          (fun p => (p, dgetD (crun (List.replicate 1 true) conc0).cache p 0)) :=
  c9_amended_no_lock 1 0 conc0 rfl

/-- Claim C10: the snapshot container built from any list of per-pin states
maps each key to a record with exactly the fields pin, value and label (the
`PinEntry` structure); the record stored under key k always has pin field
k; when the same pin occurs several times the last occurrence in list order
wins (the lookup is exactly `lastFor`, the last matching state); and a
snapshot built from a configuration with duplicate pins has strictly fewer
entries than `get_all_states` returns. -/
theorem c10_snapshot_container (states : List GPIOState) (k : Int)
    (e : PinEntry) (m : GPIOMonitor) :
    (dget? (AllGPIOStates.ofStates states).pins k = some e → e.pin = k) ∧
    (dget? (AllGPIOStates.ofStates states).pins k
      = Option.map toEntry (lastFor states k)) ∧
    (¬ m.pins.Nodup →
      (AllGPIOStates.ofStates m.get_all_states).pins.length
        < m.get_all_states.length) := by
  have h2 : dget? (AllGPIOStates.ofStates states).pins k
      = Option.map toEntry (lastFor states k) := by
    show dget? (snapAux [] states) k = _
    rw [snapAux_get?]
    cases lastFor states k <;> simp [olast]
  refine ⟨?_, h2, ?_⟩
  · intro he
    rw [h2] at he
    cases hl : lastFor states k with
    | none => rw [hl] at he; simp at he
    | some s =>
      rw [hl] at he
      simp only [Option.map_some'] at he
      unfold lastFor at hl
      have hfind := List.find?_some hl
      have hpin : s.pin = k := by simpa using hfind
      have he2 : e = toEntry s := (Option.some.inj he).symm
      rw [he2]
      exact hpin
  · intro hnd
    have hnodup : (dkeys (AllGPIOStates.ofStates m.get_all_states).pins).Nodup :=
      nodup_dkeys_snapAux m.get_all_states [] (by simp [dkeys])
    have hsub : ∀ q ∈ dkeys (AllGPIOStates.ofStates m.get_all_states).pins,
        q ∈ m.pins := by
      intro q hq
      rcases (mem_dkeys_snapAux m.get_all_states [] q).mp hq with hm | hm
      · simp [dkeys] at hm
      · rw [get_all_states_pins] at hm
        exact hm
    have hfin : (dkeys (AllGPIOStates.ofStates m.get_all_states).pins).toFinset
        ⊆ m.pins.toFinset := by
      intro x hx
      rw [List.mem_toFinset] at hx ⊢
      exact hsub x hx
    have hlen1 : (AllGPIOStates.ofStates m.get_all_states).pins.length
        = (dkeys (AllGPIOStates.ofStates m.get_all_states).pins).length := by
      simp [dkeys]
    have hkeyslen :
        (dkeys (AllGPIOStates.ofStates m.get_all_states).pins).length
          ≤ m.pins.dedup.length := by
      calc (dkeys (AllGPIOStates.ofStates m.get_all_states).pins).length
          = (dkeys (AllGPIOStates.ofStates m.get_all_states).pins).toFinset.card :=
            (List.toFinset_card_of_nodup hnodup).symm
        _ ≤ m.pins.toFinset.card := Finset.card_le_card hfin
        _ = m.pins.dedup.length := List.card_toFinset m.pins
    have hdedup : m.pins.dedup.length < m.pins.length := by
      rcases Nat.lt_or_ge m.pins.dedup.length m.pins.length with hlt | hge
      · exact hlt
      · exfalso
        have hsl : m.pins.dedup.Sublist m.pins := List.dedup_sublist m.pins
        have heq : m.pins.dedup.length = m.pins.length :=
          le_antisymm hsl.length_le hge
        have hde : m.pins.dedup = m.pins := hsl.eq_of_length heq
        exact hnd (hde ▸ m.pins.nodup_dedup)
    have hglen : m.get_all_states.length = m.pins.length := by
      rw [get_all_states_eq, List.length_map]
    rw [hlen1, hglen]
    exact lt_of_le_of_lt hkeyslen hdedup

/-- Witness for C10: with pin 5 duplicated, the later state's entry is the
one stored (its pin field equals the key), and the snapshot from the
configuration [5, 5] is strictly smaller than the pull accessor's list. -/
theorem c10_witness :
    ((⟨5, 1, some "on"⟩ : PinEntry).pin = 5) ∧
    (AllGPIOStates.ofStates
        (GPIOMonitor.init [5, 5] [] 1).get_all_states).pins.length
      < (GPIOMonitor.init [5, 5] [] 1).get_all_states.length := by
  constructor
  · exact (c10_snapshot_container
      [⟨5, 0, none⟩, ⟨5, 1, some "on"⟩] 5 ⟨5, 1, some "on"⟩
      (GPIOMonitor.init [5, 5] [] 1)).1 rfl
  · exact (c10_snapshot_container
      [⟨5, 0, none⟩, ⟨5, 1, some "on"⟩] 5 ⟨5, 1, some "on"⟩
      (GPIOMonitor.init [5, 5] [] 1)).2.2 (by decide)

end RpiGpio
